import Mathlib

set_option maxHeartbeats 1000000

/- Verification development for the mini-react reconciler
   (src/src/mini-react.js).  JavaScript values, elements, fibers and the
   engine's passes are shallowly embedded as executable Lean functions,
   translated clause by clause from the source file. -/

/-- Model of a JavaScript runtime value as it occurs in mini-react props,
state cells and dependency arrays.  JS compares function values by identity,
so function values are modelled by an identity token. -/
inductive JSVal where
  | str (s : String)
  | num (n : Int)
  | boolV (b : Bool)
  | funV (id : Nat)
  deriving DecidableEq, Repr

/-- A JS props object, modelled as an insertion-ordered association list;
mini-react only reads props through Object.keys and indexing. -/
abbrev Props := List (String × JSVal)

/-- Reading a prop: absent keys read as undefined, modelled by none. -/
def getProp (p : Props) (k : String) : Option JSVal :=
  (p.find? (fun kv => kv.1 == k)).map (·.2)

/-- The type field of an element or fiber: the TEXT_ELEMENT kind, a host tag
such as div, or a function component (compared by function identity). -/
inductive EType where
  | text
  | host (tag : String)
  | comp (id : Nat)
  deriving DecidableEq, Repr

/-- A virtual DOM element (description node) as produced by createElement.
The children array that createElement stores under the children key of the
JS props object is modelled by the separate children field. -/
inductive Element where
  | mk (type : EType) (props : Props) (children : List Element)

def Element.type : Element → EType
  | .mk t _ _ => t

def Element.props : Element → Props
  | .mk _ p _ => p

def Element.children : Element → List Element
  | .mk _ _ c => c

/-- A primitive (text-like) child value: a string or a number. -/
inductive PrimVal where
  | pstr (s : String)
  | pnum (n : Int)
  deriving DecidableEq, Repr

def PrimVal.toVal : PrimVal → JSVal
  | .pstr s => .str s
  | .pnum n => .num n

/-- A raw child argument of createElement: either a primitive value or an
element. -/
inductive RawChild where
  | prim (p : PrimVal)
  | node (e : Element)

/-- createTextNode from mini-react.js: a TEXT_ELEMENT carrying the text under
nodeValue, with an empty children list. -/
def createTextNode (nodeValue : PrimVal) : Element :=
  .mk .text [("nodeValue", nodeValue.toVal)] []

/-- The child conversion performed inside createElement: a primitive child
(string or number) becomes a text node, any other child passes through
unchanged. -/
def wrapChild : RawChild → Element
  | .prim p => createTextNode p
  | .node e => e

/-- createElement from mini-react.js. -/
def createElement (type : EType) (props : Props) (children : List RawChild) : Element :=
  .mk type props (children.map wrapChild)

/-- isEvent from mini-react.js: a key starting with on is an event key. -/
def isEvent (key : String) : Bool := key.startsWith "on"

/-- isProperty from mini-react.js: not children and not an event key. -/
def isProperty (key : String) : Bool := key != "children" && !isEvent key

/-- isNew from mini-react.js: prev[key] !== next[key], absent keys reading as
undefined. -/
def isNew (prev next : Props) (key : String) : Bool :=
  getProp prev key != getProp next key

/-- isGone from mini-react.js: not (key in next). -/
def isGone (next : Props) (key : String) : Bool :=
  !(next.map (·.1)).contains key

/-- One host DOM operation performed by updateDom.  Listener operations keep
the raw prop name; the host event type registered is eventTypeOf of it. -/
inductive DomOp where
  | removeListener (name : String) (handler : JSVal)
  | clearProp (name : String)
  | setProp (name : String) (value : JSVal)
  | addListener (name : String) (handler : JSVal)
  deriving DecidableEq, Repr

/-- The event type computed in updateDom: the key lowercased with the two
leading characters removed. -/
def eventTypeOf (name : String) : String := (name.toLower).drop 2

/-- updateDom from mini-react.js, as the ordered list of host operations it
performs: remove stale listeners, clear removed plain props, assign new or
changed plain props, then attach new or changed listeners.  Handler and value
payloads read the respective props object at the key, as the source does. -/
def updateDomOps (prevProps nextProps : Props) : List DomOp :=
  ((prevProps.map (·.1)).filter isEvent
    |>.filter (fun key =>
        !((nextProps.map (·.1)).contains key) || isNew prevProps nextProps key)
    |>.map (fun name =>
        DomOp.removeListener name ((getProp prevProps name).getD (.str ""))))
  ++ ((prevProps.map (·.1)).filter isProperty
    |>.filter (fun key => isGone nextProps key)
    |>.map (fun name => DomOp.clearProp name))
  ++ ((nextProps.map (·.1)).filter isProperty
    |>.filter (fun key => isNew prevProps nextProps key)
    |>.map (fun name =>
        DomOp.setProp name ((getProp nextProps name).getD (.str ""))))
  ++ ((nextProps.map (·.1)).filter isEvent
    |>.filter (fun key => isNew prevProps nextProps key)
    |>.map (fun name =>
        DomOp.addListener name ((getProp nextProps name).getD (.str ""))))

/-- Effect tags assigned to new fibers during diffing. -/
inductive Tag where
  | PLACEMENT
  | UPDATE
  | DELETION
  deriving DecidableEq, Repr

/-- A queued setState action as stored on a state hook queue: the function
form keeps the function (by identity token), the value form is the constant
closure () => action wrapping the plain value. -/
inductive QAct where
  | fnRef (id : Nat)
  | constOf (v : JSVal)
  deriving DecidableEq, Repr

/-- A useState cell: the stored state and the queue of pending actions. -/
structure StateCell where
  state : JSVal
  queue : List QAct
  deriving DecidableEq, Repr

/-- A useEffect cell.  The callback is a JS function value (identity token
plus the cleanup value the callback returns when invoked); deps is the
dependency array, none meaning no array was passed; cleanup is the stored
cleanup handle, none until the callback has run (JS undefined). -/
structure EffectHook where
  callback : Nat
  retCleanup : Option Nat
  deps : Option (List JSVal)
  cleanup : Option Nat
  deriving DecidableEq, Repr

/-- A fiber node.  The child and sibling links of the source are modelled by
the children list (first child plus the sibling chain); the return link is
implicit in the tree shape.  dom is the host handle (by identity token),
alternate the previous-generation counterpart. -/
inductive Fiber where
  | mk (type : EType) (props : Props) (dom : Option Nat) (effectTag : Option Tag)
       (stateHooks : List StateCell) (effectHooks : List EffectHook)
       (alternate : Option Fiber) (children : List Fiber)

def Fiber.type : Fiber → EType
  | .mk t _ _ _ _ _ _ _ => t

def Fiber.props : Fiber → Props
  | .mk _ p _ _ _ _ _ _ => p

def Fiber.dom : Fiber → Option Nat
  | .mk _ _ d _ _ _ _ _ => d

def Fiber.effectTag : Fiber → Option Tag
  | .mk _ _ _ t _ _ _ _ => t

def Fiber.stateHooks : Fiber → List StateCell
  | .mk _ _ _ _ sh _ _ _ => sh

def Fiber.effectHooks : Fiber → List EffectHook
  | .mk _ _ _ _ _ eh _ _ => eh

def Fiber.alternate : Fiber → Option Fiber
  | .mk _ _ _ _ _ _ a _ => a

def Fiber.children : Fiber → List Fiber
  | .mk _ _ _ _ _ _ _ c => c

/-- oldFiber.effectTag = DELETION in reconcileChildren: same fiber with the
tag overwritten. -/
def Fiber.setTag : Fiber → Tag → Fiber
  | .mk t p d _ sh eh a c, tag => .mk t p d (some tag) sh eh a c

/-- The fiber built by reconcileChildren when the types match (UPDATE case):
old type, new props, old dom reused, alternate linked to the old fiber.  The
hook stores are not set by reconcileChildren (empty until the node is
processed). -/
def updateFiberOf (element : Element) (oldFiber : Fiber) : Fiber :=
  .mk oldFiber.type element.props oldFiber.dom (some .UPDATE) [] [] (some oldFiber) []

/-- The fiber built by reconcileChildren when a new element has no same-type
counterpart (PLACEMENT case): new type and props, no dom yet, no alternate. -/
def placementFiberOf (element : Element) : Fiber :=
  .mk element.type element.props none (some .PLACEMENT) [] [] none []

/-- The new fiber one loop iteration of reconcileChildren writes into the
child chain when the current element is present. -/
def stepNewFiber (element : Element) (oldFiber : Option Fiber) : Fiber :=
  match oldFiber with
  | some o => if element.type == o.type then updateFiberOf element o else placementFiberOf element
  | none => placementFiberOf element

/-- One iteration of the reconcileChildren loop: the current new element (none
past the end of the list) and the current old fiber (none when the old chain
is exhausted; both none cannot occur inside the loop).  Returns the fiber
written into the child chain and, when the old fiber is present and not
reused, the old fiber tagged DELETION as pushed onto deletions. -/
def reconcileStep (element : Option Element) (oldFiber : Option Fiber) :
    Option Fiber × Option Fiber :=
  match element, oldFiber with
  | some e, some o =>
    if e.type == o.type then (some (updateFiberOf e o), none)
    else (some (placementFiberOf e), some (o.setTag .DELETION))
  | some e, none => (some (placementFiberOf e), none)
  | none, some o => (none, some (o.setTag .DELETION))
  | none, none => (none, none)

/-- reconcileChildren from mini-react.js, one level: walk the new children by
index and the old child chain by sibling link, one step per iteration, until
both are exhausted.  Returns the new child chain (the fibers linked via
child/sibling onto the parent) and the deletions in push order; each deletion
keeps the old sibling chain hanging off it, because the deleted fiber object
retains its sibling link into the old tree and commitWork recurses into it. -/
def reconcileChildren : List Element → List Fiber → List Fiber × List (Fiber × List Fiber)
  | [], [] => ([], [])
  | [], o :: os =>
    let r := reconcileChildren [] os
    (r.1, (o.setTag .DELETION, os) :: r.2)
  | e :: es, [] =>
    let r := reconcileChildren es []
    (placementFiberOf e :: r.1, r.2)
  | e :: es, o :: os =>
    let r := reconcileChildren es os
    if e.type == o.type then
      (updateFiberOf e o :: r.1, r.2)
    else
      (placementFiberOf e :: r.1, (o.setTag .DELETION, os) :: r.2)

/-- The deletions of one reconcileChildren pass, characterised positionally:
the old fiber at index i is deleted exactly when the new element at index i is
absent or of a different type, and it is pushed carrying its old sibling
chain. -/
def deletionsSpec (es : List Element) (olds : List Fiber) : List (Fiber × List Fiber) :=
  (List.range olds.length).filterMap (fun i =>
    match olds[i]? with
    | some o =>
      if (match es[i]? with | some e => e.type == o.type | none => false) then none
      else some (o.setTag .DELETION, olds.drop (i + 1))
    | none => none)

def wEl1 : Element := .mk (.host "div") [("id", .str "a")] []

def wEl2 : Element := .mk (.host "p") [] []

def wOld1 : Fiber := .mk (.host "div") [("id", .str "b")] (some 3) none [] [] none []

/-- A useState cell with real value-transforming actions, for the queue
draining semantics (the action type is arbitrary, as in JS). -/
structure StateHookP (α : Type) where
  state : α
  queue : List (α → α)

/-- useState from mini-react.js, the cell part evaluated during a component
render: seed state and queue from the alternate's cell at the same call index
when present (otherwise the initial value and an empty queue), apply every
queued action in order to the running state, then clear the queue and store
the cell. -/
def useStateCell {α : Type} (initialState : α) (oldHook : Option (StateHookP α)) :
    StateHookP α :=
  let sh : StateHookP α :=
    { state := match oldHook with | some o => o.state | none => initialState
      queue := match oldHook with | some o => o.queue | none => [] }
  let drained := sh.queue.foldl (fun s action => action s) sh.state
  { state := drained, queue := [] }

/-- Applying a list of update transforms left to right, first enqueued
first. -/
def applyAll {α : Type} : List (α → α) → α → α
  | [], s => s
  | a :: rest, s => applyAll rest (a s)

/-- The module-level mutable bindings of mini-react.js: nextUnitOfWork,
wipRoot, currentRoot, deletions (each deletion keeping its old sibling
chain, see reconcileChildren). -/
structure Globals where
  nextUnitOfWork : Option Fiber
  wipRoot : Option Fiber
  currentRoot : Option Fiber
  deletions : List (Fiber × List Fiber)

/-- The argument passed to a setter returned by useState: either a function
(by identity) or a plain value. -/
inductive SetArg where
  | fnArg (id : Nat)
  | valArg (v : JSVal)
  deriving DecidableEq, Repr

/-- The wrapping done in setState: a function action is pushed as is, a plain
value is pushed as the constant closure returning it. -/
def wrapSetArg : SetArg → QAct
  | .fnArg id => .fnRef id
  | .valArg v => .constOf v

/-- Evaluation of a queued action when the queue is later drained: a function
action applies its function (resolved through an identity environment), a
constant closure returns the wrapped value whatever the running state is. -/
def QAct.eval (env : Nat → JSVal → JSVal) : QAct → JSVal → JSVal
  | .fnRef id, s => env id s
  | .constOf v, _ => v

/-- In-place update of a list element at an index (the cell object mutated
through the setState closure is the one stored in the stateHooks array). -/
def modifyAt {α : Type} : List α → Nat → (α → α) → List α
  | [], _, _ => []
  | x :: xs, 0, f => f x :: xs
  | x :: xs, n + 1, f => x :: modifyAt xs n f

/-- The queue push performed by the setState closure: the cell at the owning
call index gains the action at the end of its queue. -/
def Fiber.pushAction : Fiber → Nat → QAct → Fiber
  | .mk t p d tg sh eh a c, idx, q =>
    .mk t p d tg (modifyAt sh idx (fun cell => { cell with queue := cell.queue ++ [q] })) eh a c

/-- Overwriting the alternate field, as the object spread with an alternate
override does in setState. -/
def Fiber.withAlternate : Fiber → Option Fiber → Fiber
  | .mk t p d tg sh eh _ c, a => .mk t p d tg sh eh a c

/-- setState from mini-react.js: push the wrapped action onto the owning
cell's queue (the cell is shared between the closure and the owning fiber's
stateHooks array), then set wipRoot to a copy of the owning fiber whose
alternate is the owning fiber, and point nextUnitOfWork at that new root. -/
def setStateModel (currentFiber : Fiber) (idx : Nat) (action : SetArg) (g : Globals) : Globals :=
  let owner := currentFiber.pushAction idx (wrapSetArg action)
  let newWip := owner.withAlternate (some owner)
  { g with wipRoot := some newWip, nextUnitOfWork := some newWip }

/-- isDepsEqual from mini-react.js: same length and element-wise strict
equality (dep === newDeps[i]). -/
def isDepsEqual (deps newDeps : List JSVal) : Bool :=
  deps.length == newDeps.length &&
    deps.enum.all (fun p => newDeps[p.1]? == some p.2)

/-- Events observable during a commit: effect cleanup and callback
invocations (with the hook index inside its node and the function identity),
and host mutations (appendChild, updateDom with its operation list,
removeChild), each carrying the host handle. -/
inductive CEvent where
  | cleanupCall (idx : Nat) (id : Nat)
  | callbackCall (idx : Nat) (id : Nat)
  | domAppend (dom : Nat)
  | domUpdate (dom : Nat) (ops : List DomOp)
  | domRemove (dom : Nat)
  deriving DecidableEq, Repr

def CEvent.isCleanup : CEvent → Bool
  | .cleanupCall _ _ => true
  | _ => false

def CEvent.isCallback : CEvent → Bool
  | .callbackCall _ _ => true
  | _ => false

/-- The hook index an effect event belongs to (none for host mutations). -/
def CEvent.effIdx? : CEvent → Option Nat
  | .cleanupCall i _ => some i
  | .callbackCall i _ => some i
  | _ => none

/-- The cleanup-pass guard of commitEffectHooks.runCleanup: run the stored
cleanup when the old hook has no deps array, or its deps differ from the new
deps at the same index.  When the old hook has a deps array but the new side
reads undefined the source would throw inside isDepsEqual; that case cannot
arise for call-order-consistent components and is mapped to true here. -/
def shouldCleanup (oldHook : EffectHook) (newDeps : Option (List JSVal)) : Bool :=
  match oldHook.deps, newDeps with
  | none, _ => true
  | some _, none => true
  | some a, some b => !(isDepsEqual a b)

/-- The run-pass guard of commitEffectHooks.run for a hook with an alternate
counterpart: re-run when the deps changed.  When either deps array is absent
the source would throw inside isDepsEqual (an effect with no deps array
crashes on its second render); that case is mapped to true here. -/
def shouldRun (oldHook newHook : EffectHook) : Bool :=
  match oldHook.deps, newHook.deps with
  | some a, some b => !(isDepsEqual a b)
  | _, _ => true

/-- commitEffectHooks.runCleanup, the per-node part: iterate the alternate's
effect hooks with their index, reading the new fiber's hook deps at the same
index, and invoke the old hook's cleanup when present and the guard holds.
The index and the new-hook list are consumed in lockstep. -/
def nodeCleanupGo : Nat → List EffectHook → List EffectHook → List CEvent
  | _, [], _ => []
  | idx, oldH :: olds, news =>
    (if shouldCleanup oldH ((news.head?).bind EffectHook.deps) then
       (match oldH.cleanup with
        | some c => [CEvent.cleanupCall idx c]
        | none => [])
     else []) ++ nodeCleanupGo (idx + 1) olds news.tail

def nodeCleanupEvents (altHooks newHooks : List EffectHook) : List CEvent :=
  nodeCleanupGo 0 altHooks newHooks

/-- commitEffectHooks.run for one hook: with no alternate counterpart (first
mount) invoke the callback and store its returned cleanup; with a counterpart
and changed deps invoke the old cleanup if present and then the callback,
storing the new cleanup; otherwise do nothing (the new hook's cleanup field
stays undefined). -/
def runHook (idx : Nat) (newHook : EffectHook) (oldHook : Option EffectHook) :
    List CEvent × EffectHook :=
  match oldHook with
  | none => ([CEvent.callbackCall idx newHook.callback],
             { newHook with cleanup := newHook.retCleanup })
  | some oldH =>
    if shouldRun oldH newHook then
      ((match oldH.cleanup with
        | some c => [CEvent.cleanupCall idx c]
        | none => []) ++ [CEvent.callbackCall idx newHook.callback],
       { newHook with cleanup := newHook.retCleanup })
    else ([], newHook)

/-- commitEffectHooks.run, the per-node part: iterate the new fiber's effect
hooks with their index, pairing each with the alternate's hook at the same
index (undefined past the end or with no alternate). -/
def nodeRunGo : Nat → List EffectHook → List EffectHook → List CEvent × List EffectHook
  | _, [], _ => ([], [])
  | idx, n :: ns, olds =>
    let r1 := runHook idx n olds.head?
    let r2 := nodeRunGo (idx + 1) ns olds.tail
    (r1.1 ++ r2.1, r1.2 :: r2.2)

def nodeRun (newHooks altHooks : List EffectHook) : List CEvent × List EffectHook :=
  nodeRunGo 0 newHooks altHooks

/-- The alternate's effect hooks as read by commitEffectHooks
(fiber.alternate?.effectHooks, with an absent alternate reading as none
hooks). -/
def Fiber.altEffectHooks : Fiber → List EffectHook
  | .mk _ _ _ _ _ _ (some a) _ => a.effectHooks
  | .mk _ _ _ _ _ _ none _ => []

mutual

/-- commitEffectHooks.runCleanup over the tree: the node's own cleanup events
followed by the child chain (child first, then siblings). -/
def runCleanupT : Fiber → List CEvent
  | .mk t p d tg sh eh a c =>
    nodeCleanupEvents (Fiber.altEffectHooks (.mk t p d tg sh eh a c)) eh ++ runCleanupL c

def runCleanupL : List Fiber → List CEvent
  | [] => []
  | f :: fs => runCleanupT f ++ runCleanupL fs

end

mutual

/-- commitEffectHooks.run over the tree: the node's own run events followed
by the child chain. -/
def runT : Fiber → List CEvent
  | .mk t p d tg sh eh a c =>
    (nodeRun eh (Fiber.altEffectHooks (.mk t p d tg sh eh a c))).1 ++ runL c

def runL : List Fiber → List CEvent
  | [] => []
  | f :: fs => runT f ++ runL fs

end

/-- commitEffectHooks from mini-react.js: one full cleanup pass over the new
generation, then one full run pass. -/
def commitEffectHooksTrace (wip : Fiber) : List CEvent :=
  runCleanupT wip ++ runT wip

/-- commitDeletion from mini-react.js: remove the fiber's host handle, or
walk down the child links until a handle is found.  (On a childless
handle-less fiber the source would throw; committed component fibers always
have one child.) -/
def commitDeletionEvents : Fiber → List CEvent
  | .mk _ _ (some h) _ _ _ _ _ => [CEvent.domRemove h]
  | .mk _ _ none _ _ _ _ (chld :: _) => commitDeletionEvents chld
  | .mk _ _ none _ _ _ _ [] => []

/-- The props of the alternate, as commitWork reads fiber.alternate.props for
an UPDATE (an UPDATE fiber always carries an alternate; absent reads as an
empty object here). -/
def Fiber.altProps : Fiber → Props
  | .mk _ _ _ _ _ _ (some a) _ => a.props
  | .mk _ _ _ _ _ _ none _ => []

/-- The host mutation commitWork performs for one fiber, by its effect tag:
append on PLACEMENT with a handle, the updateDom delta on UPDATE with a
handle, recursive removal on DELETION. -/
def commitWorkOwn (f : Fiber) : List CEvent :=
  match f.effectTag with
  | some Tag.PLACEMENT =>
    match f.dom with
    | some h => [CEvent.domAppend h]
    | none => []
  | some Tag.UPDATE =>
    match f.dom with
    | some h => [CEvent.domUpdate h (updateDomOps f.altProps f.props)]
    | none => []
  | some Tag.DELETION => commitDeletionEvents f
  | none => []

mutual

/-- commitWork from mini-react.js: the fiber's own mutation, then the child,
then the sibling (the child chain covers child plus following siblings). -/
def commitWorkT : Fiber → List CEvent
  | .mk t p d tg sh eh a c => commitWorkOwn (.mk t p d tg sh eh a c) ++ commitWorkL c

def commitWorkL : List Fiber → List CEvent
  | [] => []
  | f :: fs => commitWorkT f ++ commitWorkL fs

end

/-- commitWork applied to one entry of the deletions array: the deleted fiber
object still carries its sibling link into the old tree, so commitWork walks
the deleted fiber and then its old sibling chain. -/
def deletionEntryTrace (entry : Fiber × List Fiber) : List CEvent :=
  commitWorkL (entry.1 :: entry.2)

/-- commitRoot from mini-react.js as a trace: first commitWork on every entry
of deletions, then commitWork from wipRoot.child over the new generation,
then commitEffectHooks (cleanup pass, then run pass). -/
def commitRootTrace (dels : List (Fiber × List Fiber)) (wip : Fiber) : List CEvent :=
  (dels.map deletionEntryTrace).flatten
  ++ commitWorkL wip.children
  ++ commitEffectHooksTrace wip

mutual

/-- The depth-first (child before sibling) node order of the new
generation. -/
def dfsT : Fiber → List Fiber
  | .mk t p d tg sh eh a c => (.mk t p d tg sh eh a c) :: dfsL c

def dfsL : List Fiber → List Fiber
  | [] => []
  | f :: fs => dfsT f ++ dfsL fs

end

def w9Old : EffectHook := { callback := 1, retCleanup := some 5, deps := some [.num 2], cleanup := some 7 }

def w9New : EffectHook := { callback := 2, retCleanup := some 6, deps := some [.num 2], cleanup := none }

/-- The effect events one component node with an alternate contributes to a
single commit: its slice of the cleanup pass followed by its slice of the run
pass (the whole-tree passes visit each node once in each pass, in the same
tree order, so per node the cleanup-pass slice precedes the run-pass
slice). -/
def nodeEffectTrace (altHooks newHooks : List EffectHook) : List CEvent :=
  nodeCleanupEvents altHooks newHooks ++ (nodeRun newHooks altHooks).1

def w10Old : EffectHook :=
  { callback := 1, retCleanup := some 11, deps := some [.num 0], cleanup := some 21 }

def w10New : EffectHook :=
  { callback := 2, retCleanup := some 12, deps := some [.num 1], cleanup := none }

def c5wOld : EffectHook :=
  { callback := 5, retCleanup := some 15, deps := some [.str "x"], cleanup := some 25 }

def c5wNew : EffectHook :=
  { callback := 6, retCleanup := some 16, deps := some [.str "y"], cleanup := none }

def c5OldHook1 : EffectHook :=
  { callback := 1, retCleanup := some 11, deps := some [.num 0], cleanup := some 21 }

def c5NewHook1 : EffectHook :=
  { callback := 2, retCleanup := some 12, deps := some [.num 1], cleanup := none }

def c5OldHook2 : EffectHook :=
  { callback := 3, retCleanup := some 13, deps := some [.num 0], cleanup := some 22 }

def c5NewHook2 : EffectHook :=
  { callback := 4, retCleanup := some 14, deps := some [.num 1], cleanup := none }

def c5Comp1Old : Fiber := .mk (.comp 1) [] none none [] [c5OldHook1] none []

def c5Comp1New : Fiber :=
  .mk (.comp 1) [] none (some .UPDATE) [] [c5NewHook1] (some c5Comp1Old) []

def c5Comp2Old : Fiber := .mk (.comp 2) [] none none [] [c5OldHook2] none []

def c5Comp2New : Fiber :=
  .mk (.comp 2) [] none (some .UPDATE) [] [c5NewHook2] (some c5Comp2Old) []

/-- A committed generation with two sibling components whose effect deps both
changed: the run pass re-invokes the second component's stale cleanup after
the first component's callback has already run. -/
def c5Root : Fiber := .mk (.host "div") [] (some 0) none [] [] none [c5Comp1New, c5Comp2New]

/-- What one useEffect call site passes in one generation: the callback (with
the cleanup value it would return) and the dependency array. -/
structure HookSpec where
  callback : Nat
  retCleanup : Option Nat
  deps : Option (List JSVal)
  deriving DecidableEq, Repr

/-- The hook object useEffect pushes during a render: callback and deps as
given, cleanup undefined. -/
def freshHook (s : HookSpec) : EffectHook :=
  { callback := s.callback, retCleanup := s.retCleanup, deps := s.deps, cleanup := none }

/-- One committed generation of a single component node, effects only: the
component re-renders pushing fresh effect hooks, then the commit runs the
cleanup pass and the run pass for this node against the previous generation's
hooks (the node's alternate), yielding the effect events and the hooks the
next generation will see as its alternate. -/
def genCommit (prevHooks : List EffectHook) (specs : List HookSpec) :
    List CEvent × List EffectHook :=
  let newHooks := specs.map freshHook
  (nodeCleanupEvents prevHooks newHooks ++ (nodeRun newHooks prevHooks).1,
   (nodeRun newHooks prevHooks).2)

/-- Iterated committed generations of one component node: each generation
commits against the hooks left by the previous one (the first against the
given hooks; started from none for a first mount). -/
def runGenerations : List EffectHook → List (List HookSpec) → List CEvent × List EffectHook
  | hooks, [] => ([], hooks)
  | hooks, specs :: rest =>
    let g := genCommit hooks specs
    let r := runGenerations g.2 rest
    (g.1 ++ r.1, r.2)

def c2Spec1 : HookSpec := { callback := 1, retCleanup := some 11, deps := some [] }

def c2Spec2 : HookSpec := { callback := 2, retCleanup := some 12, deps := some [] }

def c2HostChild : Fiber := .mk (.host "button") [] (some 7) (some .PLACEMENT) [] [] none []

/-- The owning component fiber at the moment its subtree is deleted: tagged
DELETION, hooks as the engine left them after the second generation. -/
def c2DeletedComp : Fiber :=
  .mk (.comp 1) [] none (some .DELETION) []
    (runGenerations [] [[c2Spec1], [c2Spec2]]).2 none [c2HostChild]

/-- The committed generation after the deletion: the component child is
gone. -/
def c2RootAfter : Fiber := .mk (.host "div") [] (some 0) none [] [] none []

/-- Two committed generations of a mount-only effect followed by the deletion
of the owning subtree: every effect event the engine ever produces for the
cell. -/
def c2FullTrace : List CEvent :=
  (runGenerations [] [[c2Spec1], [c2Spec2]]).1
    ++ commitRootTrace [(c2DeletedComp, [])] c2RootAfter

def Fiber.withChildren : Fiber → List Fiber → Fiber
  | .mk t p d tg sh eh a _, c => .mk t p d tg sh eh a c

mutual

/-- The reconciliation outcome for a whole child chain, as the scheduler
produces it by processing each fiber in turn: one reconcileChildren pass at
this level, then each produced child fiber recursively reconciles its own
element children against its alternate's child chain.  Component children are
taken post-expansion (a component fiber's single rendered child stored as the
element's children).  Returns the fully built chain and all deletions in
traversal (preorder) order.  Host-handle creation by updateHostComponent is
not modelled here; no tree-level claim inspects handles. -/
def renderChain : List Element → List Fiber → List Fiber × List (Fiber × List Fiber)
  | elems, olds =>
    let r := reconcileChildren elems olds
    let s := renderSubtrees elems r.1
    (s.1, r.2 ++ s.2)
termination_by elems _ => (sizeOf elems, 1)
decreasing_by
  apply Prod.Lex.right
  omega

def renderSubtrees : List Element → List Fiber → List Fiber × List (Fiber × List Fiber)
  | [], _ => ([], [])
  | _ :: _, [] => ([], [])
  | e :: es, f :: fs =>
    let sub := renderChain e.children
      (match f.alternate with | some a => a.children | none => [])
    let rest := renderSubtrees es fs
    (f.withChildren sub.1 :: rest.1, sub.2 ++ rest.2)
termination_by elems _ => (sizeOf elems, 0)
decreasing_by
  · apply Prod.Lex.left
    cases e
    simp [Element.children]
    omega
  · apply Prod.Lex.left
    simp

end

mutual

/-- Structural match between a description tree and a committed fiber tree:
same type, equal props, and matching children pointwise (an unchanged
re-render). -/
def matchesB : Element → Fiber → Bool
  | .mk t p cs, .mk t2 p2 _ _ _ _ _ c2 => t == t2 && p == p2 && matchesL cs c2

def matchesL : List Element → List Fiber → Bool
  | [], [] => true
  | e :: es, f :: fs => matchesB e f && matchesL es fs
  | [], _ :: _ => false
  | _ :: _, [] => false

end

mutual

/-- Every fiber of the chain is tagged UPDATE with an empty host attribute
delta against its alternate, recursively. -/
def allUpdatedNoDelta : Fiber → Bool
  | .mk t p d tg sh eh a c =>
    (tg == some Tag.UPDATE)
      && (updateDomOps (Fiber.altProps (.mk t p d tg sh eh a c)) p == [])
      && allUpdatedL c

def allUpdatedL : List Fiber → Bool
  | [] => true
  | f :: fs => allUpdatedNoDelta f && allUpdatedL fs

end

def c4wEl : Element :=
  .mk (.host "div") [("id", .str "a")] [.mk .text [("nodeValue", .str "hi")] []]

def c4wOldChild : Fiber :=
  .mk .text [("nodeValue", .str "hi")] (some 2) (some .UPDATE) [] [] none []

def c4wOld : Fiber :=
  .mk (.host "div") [("id", .str "a")] (some 1) (some .UPDATE) [] [] none [c4wOldChild]

def c4El : Element := .mk (.host "div") [("id", .str "a")] []

def c4Old : Fiber := .mk (.host "div") [("id", .str "a")] (some 1) none [] [] none []

/-- The scheduler state of mini-react.js.  The nextUnitOfWork cursor is
represented by the list of still-unprocessed units (the performUnitOfWork
successor — child, else nearest following sibling via return links — walks
the work-in-progress tree in depth-first preorder, so the cursor and the
remaining traversal determine each other; an absent cursor is the empty
list). -/
structure SchedState where
  units : List Fiber
  wip : Option Fiber
  current : Option Fiber
  dels : List (Fiber × List Fiber)

/-- The workLoop while loop: shouldYield starts false, so at least one unit is
processed per invocation when the cursor is present; after each unit the
deadline is polled (true = timeRemaining below threshold) and the loop stops
on yield or when the cursor becomes absent. -/
def sliceLoop (sigs : Nat → Bool) : Nat → List Fiber → List Fiber
  | _, [] => []
  | i, _ :: rest => if sigs i then rest else sliceLoop sigs (i + 1) rest

/-- commitRoot's bookkeeping: promote wipRoot to currentRoot, clear wipRoot,
reset deletions. -/
def commitRootState (s : SchedState) : SchedState :=
  { s with current := s.wip, wip := none, dels := [] }

/-- One workLoop invocation: run the slice loop, then trigger exactly one
commit when no next unit of work remains and a work-in-progress root exists.
The boolean reports whether the commit fired. -/
def workLoopModel (sigs : Nat → Bool) (s : SchedState) : SchedState × Bool :=
  let units2 := sliceLoop sigs 0 s.units
  let s2 := { s with units := units2 }
  if units2.isEmpty && s2.wip.isSome then (commitRootState s2, true) else (s2, false)

/-- Repeated workLoop invocations (the environment re-invoking the idle
callback), counting how many of them committed. -/
def runMany : List (Nat → Bool) → SchedState → SchedState × Nat
  | [], s => (s, 0)
  | sig :: rest, s =>
    let r := workLoopModel sig s
    let r2 := runMany rest r.1
    (r2.1, (if r.2 then 1 else 0) + r2.2)

def w8Fiber : Fiber := .mk (.host "div") [] none none [] [] none []

def w8State : SchedState :=
  { units := [w8Fiber], wip := some w8Fiber, current := none, dels := [] }

def w8Sigs : List (Nat → Bool) := [fun _ => false, fun _ => false]

/-- The climb part of the performUnitOfWork successor: walk up the return
links (the stack of unvisited sibling chains of the ancestors) until some
ancestor has a following sibling, and move there; none when the walk reaches
past the root. -/
def climbNext : List (List Fiber) → Option (Fiber × List (List Fiber))
  | [] => none
  | [] :: up => climbNext up
  | (sib :: sibs) :: up => some (sib, sibs :: up)

/-- The performUnitOfWork successor on tree positions (fiber plus the stack
of its ancestors' unvisited sibling chains): prefer the first child; if none,
climb to the nearest following sibling. -/
def puowNext (f : Fiber) (stk : List (List Fiber)) : Option (Fiber × List (List Fiber)) :=
  match f.children with
  | c :: cs => some (c, cs :: stk)
  | [] => climbNext stk

mutual

/-- The fibers visited by iterating the performUnitOfWork successor from a
position until the traversal completes. -/
def traverseFrom : Fiber → List (List Fiber) → List Fiber
  | .mk t p d tg sh eh a (c :: cs), stk =>
    (.mk t p d tg sh eh a (c :: cs)) :: traverseFrom c (cs :: stk)
  | .mk t p d tg sh eh a [], stk => (.mk t p d tg sh eh a []) :: climbTraverse stk
termination_by f stk => sizeOf f + sizeOf stk
decreasing_by
  all_goals
    simp
  all_goals
    omega

def climbTraverse : List (List Fiber) → List Fiber
  | [] => []
  | [] :: up => climbTraverse up
  | (sib :: sibs) :: up => traverseFrom sib (sibs :: up)
termination_by stk => sizeOf stk
decreasing_by
  all_goals
    simp
  all_goals
    omega

end

/-- On identical props objects updateDom performs no host operation. -/
theorem updateDomOps_self (p : Props) : updateDomOps p p = [] := by
  have hnew : ∀ k, isNew p p k = false := fun k => by simp [isNew]
  unfold updateDomOps
  rw [List.append_eq_nil, List.append_eq_nil, List.append_eq_nil]
  refine ⟨⟨⟨?_, ?_⟩, ?_⟩, ?_⟩ <;>
    refine List.map_eq_nil_iff.mpr (List.filter_eq_nil_iff.mpr ?_)
  · intro k hk
    have hmem : k ∈ p.map (·.1) := (List.mem_filter.mp hk).1
    obtain ⟨kv, hin, hek⟩ := List.mem_map.mp hmem
    simp [hnew]
    refine ⟨kv.2, ?_⟩
    rw [← hek]
    simpa using hin
  · intro k hk
    have hmem : k ∈ p.map (·.1) := (List.mem_filter.mp hk).1
    obtain ⟨kv, hin, hek⟩ := List.mem_map.mp hmem
    simp [isGone]
    refine ⟨kv.2, ?_⟩
    rw [← hek]
    simpa using hin
  · intro k _
    simp [hnew]
  · intro k _
    simp [hnew]

/-- Every host operation updateDom emits concerns a key at which the two props
objects actually differ: plain assignments and listener attachments require
prev[key] !== next[key], removed plain props require the key to be gone from
next, and listener removals require the key gone from next or changed. -/
theorem updateDomOps_only_changed (prev next : Props) :
    ∀ op ∈ updateDomOps prev next,
      (∃ n h, op = DomOp.removeListener n h ∧
        (!((next.map (·.1)).contains n) || isNew prev next n) = true) ∨
      (∃ n, op = DomOp.clearProp n ∧ isGone next n = true) ∨
      (∃ n v, op = DomOp.setProp n v ∧ isNew prev next n = true) ∨
      (∃ n h, op = DomOp.addListener n h ∧ isNew prev next n = true) := by
  intro op hop
  unfold updateDomOps at hop
  rw [List.mem_append] at hop
  rcases hop with hop | hop
  · rw [List.mem_append] at hop
    rcases hop with hop | hop
    · rw [List.mem_append] at hop
      rcases hop with hop | hop
      · left
        obtain ⟨k, hk, rfl⟩ := List.mem_map.mp hop
        exact ⟨k, _, rfl, (List.mem_filter.mp hk).2⟩
      · right; left
        obtain ⟨k, hk, rfl⟩ := List.mem_map.mp hop
        exact ⟨k, rfl, (List.mem_filter.mp hk).2⟩
    · right; right; left
      obtain ⟨k, hk, rfl⟩ := List.mem_map.mp hop
      exact ⟨k, _, rfl, (List.mem_filter.mp hk).2⟩
  · right; right; right
    obtain ⟨k, hk, rfl⟩ := List.mem_map.mp hop
    exact ⟨k, _, rfl, (List.mem_filter.mp hk).2⟩

theorem deletionsSpec_nil_right (es : List Element) : deletionsSpec es [] = [] := by
  simp [deletionsSpec]

theorem deletionsSpec_cons_cons (e : Element) (es : List Element) (o : Fiber) (os : List Fiber) :
    deletionsSpec (e :: es) (o :: os) =
      (if e.type == o.type then deletionsSpec es os
       else (o.setTag .DELETION, os) :: deletionsSpec es os) := by
  by_cases h : e.type == o.type
  · rw [if_pos h]
    unfold deletionsSpec
    simp [List.length_cons, List.range_succ_eq_map, List.filterMap_cons, List.filterMap_map,
      List.getElem?_cons_zero, h]
    apply List.filterMap_congr
    intro i _
    simp [Function.comp]
  · rw [if_neg h]
    unfold deletionsSpec
    simp [List.length_cons, List.range_succ_eq_map, List.filterMap_cons, List.filterMap_map,
      List.getElem?_cons_zero, h, List.drop_succ_cons, List.drop_zero]
    congr 1
    funext i
    simp [Function.comp]

theorem deletionsSpec_nil_cons (o : Fiber) (os : List Fiber) :
    deletionsSpec [] (o :: os) = (o.setTag .DELETION, os) :: deletionsSpec [] os := by
  unfold deletionsSpec
  simp [List.length_cons, List.range_succ_eq_map, List.filterMap_cons, List.filterMap_map,
    List.getElem?_cons_zero, List.drop_succ_cons, List.drop_zero]
  congr 1
  funext i
  simp [Function.comp]

theorem reconcileChildren_fst (es : List Element) (olds : List Fiber) (i : Nat) :
    (reconcileChildren es olds).1[i]? =
      (es[i]?).map (fun e => stepNewFiber e olds[i]?) := by
  induction es generalizing olds i with
  | nil =>
    induction olds with
    | nil => simp [reconcileChildren]
    | cons o os ih => simpa [reconcileChildren] using ih
  | cons e es ih =>
    cases olds with
    | nil =>
      cases i with
      | zero => simp [reconcileChildren, stepNewFiber]
      | succ j => simpa [reconcileChildren] using ih [] j
    | cons o os =>
      by_cases h : e.type == o.type
      · cases i with
        | zero =>
          simp [reconcileChildren, stepNewFiber, h]
          rw [if_pos (eq_of_beq h)]
        | succ j => simpa [reconcileChildren, h] using ih os j
      · cases i with
        | zero =>
          simp [reconcileChildren, stepNewFiber, h]
          rw [if_neg (fun hc => h (beq_iff_eq.mpr hc))]
        | succ j => simpa [reconcileChildren, h] using ih os j

theorem reconcileChildren_snd (es : List Element) (olds : List Fiber) :
    (reconcileChildren es olds).2 = deletionsSpec es olds := by
  induction olds generalizing es with
  | nil =>
    rw [deletionsSpec_nil_right]
    induction es with
    | nil => simp [reconcileChildren]
    | cons e es ihe => simpa [reconcileChildren] using ihe
  | cons o os ih =>
    cases es with
    | nil =>
      rw [deletionsSpec_nil_cons]
      simpa [reconcileChildren] using ih []
    | cons e es =>
      rw [deletionsSpec_cons_cons]
      by_cases h : e.type == o.type
      · simpa [reconcileChildren, h] using ih es
      · simpa [reconcileChildren, h] using ih es

/-- C1: for every step of reconcileChildren over a new-children list and the
old child chain, walked positionally (the old cursor advances one sibling per
index exactly when an old node was present): when the element at the current
index is present exactly one of UPDATE (types equal: new fiber carries the new
props, reuses the old dom, alternate = old fiber) and PLACEMENT (new fiber
with no dom, no alternate) fires, and the DELETION outcome fires independently
exactly when an old counterpart is present and was not reused (type mismatch
or new list exhausted), tagging the old fiber DELETION and pushing it. -/
theorem C1_reconcileChildren_step_outcomes :
    (∀ (es : List Element) (olds : List Fiber) (i : Nat),
      (reconcileChildren es olds).1[i]? =
        (es[i]?).map (fun e => stepNewFiber e olds[i]?))
    ∧ (∀ (es : List Element) (olds : List Fiber),
        (reconcileChildren es olds).2 = deletionsSpec es olds)
    ∧ (∀ (e : Element) (o? : Option Fiber),
        (reconcileStep (some e) o?).1 = some (stepNewFiber e o?))
    ∧ (∀ (e : Element) (o : Fiber), e.type = o.type →
        stepNewFiber e (some o) = updateFiberOf e o ∧
        (updateFiberOf e o).effectTag = some Tag.UPDATE ∧
        (updateFiberOf e o).props = e.props ∧
        (updateFiberOf e o).dom = o.dom ∧
        (updateFiberOf e o).alternate = some o)
    ∧ (∀ (e : Element) (o : Fiber), e.type ≠ o.type →
        stepNewFiber e (some o) = placementFiberOf e)
    ∧ (∀ (e : Element), stepNewFiber e none = placementFiberOf e ∧
        (placementFiberOf e).effectTag = some Tag.PLACEMENT ∧
        (placementFiberOf e).props = e.props ∧
        (placementFiberOf e).dom = none ∧
        (placementFiberOf e).alternate = none)
    ∧ (∀ (e : Element) (o? : Option Fiber),
        ¬ ((stepNewFiber e o?).effectTag = some Tag.UPDATE ∧
           (stepNewFiber e o?).effectTag = some Tag.PLACEMENT))
    ∧ (∀ (e? : Option Element) (o : Fiber), (reconcileStep e? (some o)).2 =
        (if (match e? with | some e => e.type == o.type | none => false)
         then none else some (o.setTag Tag.DELETION)))
    ∧ (∀ (o : Fiber), (o.setTag Tag.DELETION).effectTag = some Tag.DELETION) := by
  refine ⟨reconcileChildren_fst, reconcileChildren_snd, ?_, ?_, ?_, ?_, ?_, ?_, ?_⟩
  · intro e o?
    cases o? with
    | none => rfl
    | some o =>
      simp only [reconcileStep, stepNewFiber]
      by_cases h : e.type == o.type
      · simp [h]
      · simp [h]
  · intro e o h
    refine ⟨?_, rfl, rfl, rfl, rfl⟩
    simp [stepNewFiber, h]
  · intro e o h
    simp [stepNewFiber, beq_iff_eq, h]
  · intro e
    exact ⟨rfl, rfl, rfl, rfl, rfl⟩
  · intro e o?
    rintro ⟨h1, h2⟩
    rw [h1] at h2
    simp at h2
  · intro e? o
    cases e? with
    | none => rfl
    | some e =>
      simp only [reconcileStep]
      by_cases h : e.type == o.type
      · simp [h]
      · simp [h]
  · intro o
    cases o
    rfl

theorem C1_reconcileChildren_step_outcomes_witness :
    (wEl1.type = wOld1.type ∧
      stepNewFiber wEl1 (some wOld1) = updateFiberOf wEl1 wOld1 ∧
      (updateFiberOf wEl1 wOld1).effectTag = some Tag.UPDATE ∧
      (updateFiberOf wEl1 wOld1).props = wEl1.props ∧
      (updateFiberOf wEl1 wOld1).dom = wOld1.dom ∧
      (updateFiberOf wEl1 wOld1).alternate = some wOld1) ∧
    (wEl2.type ≠ wOld1.type ∧
      stepNewFiber wEl2 (some wOld1) = placementFiberOf wEl2) :=
  ⟨⟨rfl, C1_reconcileChildren_step_outcomes.2.2.2.1 wEl1 wOld1 rfl⟩,
   ⟨by decide,
    C1_reconcileChildren_step_outcomes.2.2.2.2.1 wEl2 wOld1 (by decide)⟩⟩

/-- C7: createElement stores the given type and props and wraps each child:
a primitive child becomes a text node whose sole content prop is that value
and whose child list is empty, every other child appears identity-unchanged,
in the original order (positional correspondence). -/
theorem C7_createElement_wraps_children :
    (∀ (t : EType) (props : Props) (children : List RawChild),
      (createElement t props children).type = t ∧
      (createElement t props children).props = props ∧
      (createElement t props children).children = children.map wrapChild)
    ∧ (∀ (p : PrimVal), wrapChild (.prim p) = createTextNode p ∧
        (createTextNode p).type = EType.text ∧
        (createTextNode p).props = [("nodeValue", p.toVal)] ∧
        (createTextNode p).children = [])
    ∧ (∀ (e : Element), wrapChild (.node e) = e)
    ∧ (∀ (t : EType) (props : Props) (children : List RawChild) (i : Nat),
      (createElement t props children).children[i]? = (children[i]?).map wrapChild) := by
  refine ⟨fun t props children => ⟨rfl, rfl, rfl⟩, fun p => ⟨rfl, rfl, rfl, rfl⟩,
    fun e => rfl, fun t props children i => ?_⟩
  simp [createElement, Element.children]

theorem foldl_apply_eq_applyAll {α : Type} (q : List (α → α)) (s : α) :
    q.foldl (fun s action => action s) s = applyAll q s := by
  induction q generalizing s with
  | nil => rfl
  | cons a rest ih => simp [applyAll, List.foldl_cons, ih]

/-- C3: the value returned by a useState cell evaluation is the alternate's
stored value (or the initial value when no alternate cell exists) with every
queued transform applied in enqueue order, after which the queue is cleared;
in particular the three queued updates plus-one, double, plus-one starting at
state 0 yield 3. -/
theorem C3_useState_drains_queue_in_order :
    (∀ (α : Type) (init : α) (old : StateHookP α),
      (useStateCell init (some old)).state = applyAll old.queue old.state ∧
      (useStateCell init (some old)).queue = [])
    ∧ (∀ (α : Type) (init : α),
      (useStateCell init (none : Option (StateHookP α))).state = init ∧
      (useStateCell init (none : Option (StateHookP α))).queue = [])
    ∧ (useStateCell (0 : Int)
        (some { state := 0,
                queue := [fun n => n + 1, fun n => n * 2, fun n => n + 1] })).state = 3 := by
  refine ⟨fun α init old => ⟨?_, rfl⟩, fun α init => ⟨rfl, rfl⟩, by norm_num [useStateCell]⟩
  simp [useStateCell, foldl_apply_eq_applyAll]

theorem modifyAt_getElem_self {α : Type} (l : List α) (i : Nat) (f : α → α) :
    (modifyAt l i f)[i]? = (l[i]?).map f := by
  induction l generalizing i with
  | nil => simp [modifyAt]
  | cons x xs ih =>
    cases i with
    | zero => simp [modifyAt]
    | succ j => simpa [modifyAt] using ih j

theorem modifyAt_getElem_ne {α : Type} (l : List α) (i j : Nat) (f : α → α) (h : j ≠ i) :
    (modifyAt l i f)[j]? = l[j]? := by
  induction l generalizing i j with
  | nil => simp [modifyAt]
  | cons x xs ih =>
    cases i with
    | zero =>
      cases j with
      | zero => exact absurd rfl h
      | succ k => simp [modifyAt]
    | succ i2 =>
      cases j with
      | zero => simp [modifyAt]
      | succ k => simpa [modifyAt] using ih i2 k (fun hk => h (by rw [hk]))

theorem pushAction_stateHooks (f : Fiber) (idx : Nat) (q : QAct) :
    (f.pushAction idx q).stateHooks =
      modifyAt f.stateHooks idx (fun cell => { cell with queue := cell.queue ++ [q] }) := by
  cases f
  rfl

theorem withAlternate_fields (f : Fiber) (a : Option Fiber) :
    (f.withAlternate a).alternate = a ∧
    (f.withAlternate a).type = f.type ∧
    (f.withAlternate a).props = f.props ∧
    (f.withAlternate a).dom = f.dom ∧
    (f.withAlternate a).stateHooks = f.stateHooks ∧
    (f.withAlternate a).effectHooks = f.effectHooks ∧
    (f.withAlternate a).children = f.children := by
  cases f
  exact ⟨rfl, rfl, rfl, rfl, rfl, rfl, rfl⟩

/-- C6: invoking a setter returned by useState pushes the corresponding
transform (a plain value wrapped as a constant-returning transform, a
function pushed as is) onto the owning cell's queue, and seeds a new
work-in-progress generation from the work node owning the cell: wipRoot and
the armed scheduler cursor nextUnitOfWork both point at that seed (not
necessarily the true tree root), whose alternate is the owning node; the
committed root and the deletions array are untouched. -/
theorem C6_setState_seeds_wip_from_owner (f : Fiber) (idx : Nat) (a : SetArg) (g : Globals) :
    ∃ seed,
      (setStateModel f idx a g).wipRoot = some seed ∧
      (setStateModel f idx a g).nextUnitOfWork = some seed ∧
      seed = (f.pushAction idx (wrapSetArg a)).withAlternate
        (some (f.pushAction idx (wrapSetArg a))) ∧
      seed.alternate = some (f.pushAction idx (wrapSetArg a)) ∧
      (seed.stateHooks[idx]?).map StateCell.queue =
        ((f.stateHooks[idx]?).map StateCell.queue).map (fun q => q ++ [wrapSetArg a]) ∧
      (∀ j, j ≠ idx → seed.stateHooks[j]? = f.stateHooks[j]?) ∧
      (∀ env v s, QAct.eval env (wrapSetArg (SetArg.valArg v)) s = v) ∧
      (∀ fid, wrapSetArg (SetArg.fnArg fid) = QAct.fnRef fid) ∧
      (setStateModel f idx a g).currentRoot = g.currentRoot ∧
      (setStateModel f idx a g).deletions = g.deletions := by
  refine ⟨(f.pushAction idx (wrapSetArg a)).withAlternate
    (some (f.pushAction idx (wrapSetArg a))), rfl, rfl, rfl,
    (withAlternate_fields _ _).1, ?_, ?_, fun env v s => rfl, fun fid => rfl, rfl, rfl⟩
  · rw [(withAlternate_fields _ _).2.2.2.2.1, pushAction_stateHooks,
      modifyAt_getElem_self]
    cases f.stateHooks[idx]? with
    | none => rfl
    | some cell => rfl
  · intro j hj
    rw [(withAlternate_fields _ _).2.2.2.2.1, pushAction_stateHooks,
      modifyAt_getElem_ne _ _ _ _ hj]

theorem isDepsEqual_iff_eq (a b : List JSVal) : isDepsEqual a b = true ↔ a = b := by
  constructor
  · intro h
    unfold isDepsEqual at h
    rw [Bool.and_eq_true] at h
    obtain ⟨hlen, hall⟩ := h
    have hlen2 : a.length = b.length := by simpa using hlen
    apply List.ext_getElem?
    intro i
    by_cases hi : i < a.length
    · have hai : a[i]? = some a[i] := List.getElem?_eq_getElem hi
      have hmem : (i, a[i]) ∈ a.enum := List.mk_mem_enum_iff_getElem?.mpr hai
      have := List.all_eq_true.mp hall _ hmem
      simp only [beq_iff_eq] at this
      rw [hai, this]
    · have ha : a[i]? = none := List.getElem?_eq_none (Nat.le_of_not_lt hi)
      have hb : b[i]? = none := List.getElem?_eq_none (by
        rw [← hlen2]; exact Nat.le_of_not_lt hi)
      rw [ha, hb]
  · rintro rfl
    unfold isDepsEqual
    rw [Bool.and_eq_true]
    refine ⟨by simp, List.all_eq_true.mpr ?_⟩
    rintro ⟨i, x⟩ hmem
    have hx := List.mk_mem_enum_iff_getElem?.mp hmem
    simp [hx]

/-- C9: two dependency lists are treated as unchanged exactly when they have
the same length and are element-wise strictly equal, which for the modelled
values coincides with list-value equality (list object identity plays no
role); an unchanged comparison makes the run pass skip the callback entirely
and makes the cleanup-pass guard false. -/
theorem C9_deps_equality_elementwise :
    (∀ (a b : List JSVal), isDepsEqual a b = true ↔
      (a.length = b.length ∧ ∀ i : Nat, a[i]? = b[i]?))
    ∧ (∀ (a b : List JSVal), isDepsEqual a b = true ↔ a = b)
    ∧ (∀ (k : Nat) (oldH newH : EffectHook) (a b : List JSVal),
        oldH.deps = some a → newH.deps = some b → isDepsEqual a b = true →
        (runHook k newH (some oldH)).1 = [] ∧
        (runHook k newH (some oldH)).2 = newH ∧
        shouldCleanup oldH newH.deps = false) := by
  refine ⟨?_, isDepsEqual_iff_eq, ?_⟩
  · intro a b
    rw [isDepsEqual_iff_eq]
    constructor
    · rintro rfl
      exact ⟨rfl, fun i => rfl⟩
    · rintro ⟨hlen, hget⟩
      exact List.ext_getElem? hget
  · intro k oldH newH a b hda hdb heq
    have hrun : shouldRun oldH newH = false := by
      unfold shouldRun
      rw [hda, hdb]
      simp [heq]
    refine ⟨?_, ?_, ?_⟩
    · simp [runHook, hrun]
    · simp [runHook, hrun]
    · unfold shouldCleanup
      rw [hda, hdb]
      simp [heq]

theorem C9_deps_equality_elementwise_witness :
    (w9Old.deps = some [JSVal.num 2] ∧ w9New.deps = some [JSVal.num 2] ∧
      isDepsEqual [JSVal.num 2] [JSVal.num 2] = true) ∧
    ((runHook 0 w9New (some w9Old)).1 = [] ∧
      (runHook 0 w9New (some w9Old)).2 = w9New ∧
      shouldCleanup w9Old w9New.deps = false) :=
  ⟨⟨rfl, rfl, by decide⟩,
   C9_deps_equality_elementwise.2.2 0 w9Old w9New [JSVal.num 2] [JSVal.num 2]
     rfl rfl (by decide)⟩

theorem nodeCleanupGo_bound (k : Nat) (olds news : List EffectHook) :
    ∀ e ∈ nodeCleanupGo k olds news, ∃ j c, e = CEvent.cleanupCall j c ∧ k ≤ j := by
  induction olds generalizing k news with
  | nil => simp [nodeCleanupGo]
  | cons oldH olds ih =>
    intro e he
    unfold nodeCleanupGo at he
    rcases List.mem_append.mp he with h | h
    · by_cases hg : shouldCleanup oldH ((news.head?).bind EffectHook.deps)
      · rw [if_pos hg] at h
        cases hcl : oldH.cleanup with
        | none => rw [hcl] at h; simp at h
        | some c =>
          rw [hcl] at h
          simp at h
          exact ⟨k, c, h, le_refl k⟩
      · rw [if_neg hg] at h
        simp at h
    · obtain ⟨j, c, hec, hkj⟩ := ih (k + 1) news.tail e h
      exact ⟨j, c, hec, Nat.le_of_succ_le hkj⟩

theorem list_tail_getElem {α : Type} (l : List α) (i : Nat) : l.tail[i]? = l[i + 1]? := by
  cases l with
  | nil => simp
  | cons x xs => simp

theorem nodeCleanupGo_filter (k i : Nat) (olds news : List EffectHook) :
    (nodeCleanupGo k olds news).filter (fun e => e.effIdx? == some (k + i)) =
      (match olds[i]? with
       | some oldH =>
         if shouldCleanup oldH ((news[i]?).bind EffectHook.deps) then
           (match oldH.cleanup with
            | some c => [CEvent.cleanupCall (k + i) c]
            | none => [])
         else []
       | none => []) := by
  induction olds generalizing k i news with
  | nil => simp [nodeCleanupGo]
  | cons oldH olds ih =>
    unfold nodeCleanupGo
    rw [List.filter_append]
    cases i with
    | zero =>
      have htail : (nodeCleanupGo (k + 1) olds news.tail).filter
          (fun e => e.effIdx? == some (k + 0)) = [] := by
        apply List.filter_eq_nil_iff.mpr
        intro e he
        obtain ⟨j, c, rfl, hkj⟩ := nodeCleanupGo_bound (k + 1) olds news.tail e he
        simp [CEvent.effIdx?]
        omega
      rw [htail, List.append_nil]
      simp only [List.getElem?_cons_zero, Nat.add_zero]
      rw [List.head?_eq_getElem?]
      by_cases hg : shouldCleanup oldH ((news[0]?).bind EffectHook.deps)
      · rw [if_pos hg]
        cases oldH.cleanup with
        | none => simp
        | some c => simp [CEvent.effIdx?]
      · rw [if_neg hg]
        simp
    | succ i2 =>
      have hhead : ∀ l : List CEvent,
          (∀ e ∈ l, ∃ c, e = CEvent.cleanupCall k c) →
          l.filter (fun e => e.effIdx? == some (k + (i2 + 1))) = [] := by
        intro l hl
        apply List.filter_eq_nil_iff.mpr
        intro e he
        obtain ⟨c, rfl⟩ := hl e he
        simp [CEvent.effIdx?]
      have h1 : ((if shouldCleanup oldH ((news.head?).bind EffectHook.deps) then
           (match oldH.cleanup with
            | some c => [CEvent.cleanupCall k c]
            | none => [])
         else []) : List CEvent).filter (fun e => e.effIdx? == some (k + (i2 + 1))) = [] := by
        apply hhead
        intro e he
        by_cases hg : shouldCleanup oldH ((news.head?).bind EffectHook.deps)
        · rw [if_pos hg] at he
          cases hcl : oldH.cleanup with
          | none => rw [hcl] at he; simp at he
          | some c => rw [hcl] at he; simp at he; exact ⟨c, he⟩
        · rw [if_neg hg] at he
          simp at he
      rw [h1, List.nil_append]
      have harith : k + (i2 + 1) = (k + 1) + i2 := by omega
      rw [harith, ih (k + 1) i2 news.tail]
      simp only [List.getElem?_cons_succ, list_tail_getElem]

theorem runHook_events_idx (k : Nat) (n : EffectHook) (o : Option EffectHook) :
    ∀ e ∈ (runHook k n o).1, e.effIdx? = some k := by
  intro e he
  unfold runHook at he
  cases o with
  | none =>
    simp at he
    rw [he]
    rfl
  | some oldH =>
    dsimp only at he
    by_cases hg : shouldRun oldH n
    · rw [if_pos hg] at he
      rcases List.mem_append.mp he with h2 | h2
      · cases hcl : oldH.cleanup with
        | none => rw [hcl] at h2; simp at h2
        | some c => rw [hcl] at h2; simp at h2; rw [h2]; rfl
      · simp at h2
        rw [h2]
        rfl
    · rw [if_neg hg] at he
      simp at he

theorem nodeRunGo_bound (k : Nat) (news olds : List EffectHook) :
    ∀ e ∈ (nodeRunGo k news olds).1, ∃ j, e.effIdx? = some j ∧ k ≤ j := by
  induction news generalizing k olds with
  | nil => simp [nodeRunGo]
  | cons n ns ih =>
    intro e he
    unfold nodeRunGo at he
    rcases List.mem_append.mp he with h | h
    · have hidx := runHook_events_idx k n olds.head? e h
      exact ⟨k, hidx, le_refl k⟩
    · obtain ⟨j, hj, hkj⟩ := ih (k + 1) olds.tail e h
      exact ⟨j, hj, Nat.le_of_succ_le hkj⟩

theorem nodeRunGo_filter (k i : Nat) (news olds : List EffectHook) :
    ((nodeRunGo k news olds).1).filter (fun e => e.effIdx? == some (k + i)) =
      (match news[i]? with
       | some newH => (runHook (k + i) newH olds[i]?).1
       | none => []) := by
  induction news generalizing k i olds with
  | nil => simp [nodeRunGo]
  | cons n ns ih =>
    unfold nodeRunGo
    rw [List.filter_append]
    cases i with
    | zero =>
      have htail : ((nodeRunGo (k + 1) ns olds.tail).1).filter
          (fun e => e.effIdx? == some (k + 0)) = [] := by
        apply List.filter_eq_nil_iff.mpr
        intro e he
        obtain ⟨j, hj, hkj⟩ := nodeRunGo_bound (k + 1) ns olds.tail e he
        simp [hj]
        omega
      rw [htail, List.append_nil]
      simp only [List.getElem?_cons_zero, Nat.add_zero]
      rw [List.head?_eq_getElem?]
      apply List.filter_eq_self.mpr
      intro e he
      rw [runHook_events_idx k n olds[0]? e he]
      simp
    | succ i2 =>
      have h1 : ((runHook k n olds.head?).1).filter
          (fun e => e.effIdx? == some (k + (i2 + 1))) = [] := by
        apply List.filter_eq_nil_iff.mpr
        intro e he
        rw [runHook_events_idx k n olds.head? e he]
        simp
      rw [h1, List.nil_append]
      have harith : k + (i2 + 1) = (k + 1) + i2 := by omega
      rw [harith, ih (k + 1) i2 olds.tail]
      simp only [List.getElem?_cons_succ, list_tail_getElem]

/-- C10: in a single commit, for a component node with an alternate and an
effect cell at index i whose deps are present in both generations but not
element-wise equal and whose previous cleanup handle exists, that cleanup
handle is invoked twice: once in the cleanup pass, and a second time in the
run pass immediately before the new callback is invoked. -/
theorem C10_changed_deps_cleanup_invoked_twice
    (altHooks newHooks : List EffectHook) (i : Nat) (oldH newH : EffectHook)
    (a b : List JSVal) (c : Nat)
    (h1 : altHooks[i]? = some oldH) (h2 : newHooks[i]? = some newH)
    (hda : oldH.deps = some a) (hdb : newH.deps = some b)
    (hne : isDepsEqual a b = false) (hc : oldH.cleanup = some c) :
    (nodeEffectTrace altHooks newHooks).filter (fun e => e.effIdx? == some i) =
      [CEvent.cleanupCall i c, CEvent.cleanupCall i c,
        CEvent.callbackCall i newH.callback] ∧
    ((nodeEffectTrace altHooks newHooks).filter
        (fun e => e.effIdx? == some i)).count (CEvent.cleanupCall i c) = 2 := by
  have hsc : shouldCleanup oldH ((newHooks[i]?).bind EffectHook.deps) = true := by
    rw [h2]
    unfold shouldCleanup
    rw [hda]
    simp [hdb, hne]
  have hsr : shouldRun oldH newH = true := by
    unfold shouldRun
    rw [hda, hdb]
    simp [hne]
  have e1 := nodeCleanupGo_filter 0 i altHooks newHooks
  have e2 := nodeRunGo_filter 0 i newHooks altHooks
  rw [Nat.zero_add] at e1 e2
  simp only [h1, hsc, if_true, hc] at e1
  simp only [h2, h1] at e2
  have e2b : (runHook i newH (some oldH)).1 =
      [CEvent.cleanupCall i c, CEvent.callbackCall i newH.callback] := by
    unfold runHook
    dsimp only
    rw [if_pos hsr, hc]
    rfl
  have hmain : (nodeEffectTrace altHooks newHooks).filter
      (fun e => e.effIdx? == some i) =
      [CEvent.cleanupCall i c, CEvent.cleanupCall i c,
        CEvent.callbackCall i newH.callback] := by
    unfold nodeEffectTrace nodeCleanupEvents nodeRun
    rw [List.filter_append, e1, e2, e2b]
    rfl
  refine ⟨hmain, ?_⟩
  rw [hmain]
  simp [List.count_cons]

theorem C10_changed_deps_cleanup_invoked_twice_witness :
    (([w10Old] : List EffectHook)[0]? = some w10Old ∧
      ([w10New] : List EffectHook)[0]? = some w10New ∧
      w10Old.deps = some [JSVal.num 0] ∧ w10New.deps = some [JSVal.num 1] ∧
      isDepsEqual [JSVal.num 0] [JSVal.num 1] = false ∧ w10Old.cleanup = some 21) ∧
    ((nodeEffectTrace [w10Old] [w10New]).filter (fun e => e.effIdx? == some 0) =
      [CEvent.cleanupCall 0 21, CEvent.cleanupCall 0 21, CEvent.callbackCall 0 2] ∧
     ((nodeEffectTrace [w10Old] [w10New]).filter
        (fun e => e.effIdx? == some 0)).count (CEvent.cleanupCall 0 21) = 2) :=
  ⟨⟨rfl, rfl, rfl, rfl, by decide, rfl⟩,
   C10_changed_deps_cleanup_invoked_twice [w10Old] [w10New] 0 w10Old w10New
     [JSVal.num 0] [JSVal.num 1] 21 rfl rfl rfl rfl (by decide) rfl⟩

theorem commitDeletionEvents_only_remove :
    ∀ (f : Fiber) (e : CEvent), e ∈ commitDeletionEvents f → ∃ h, e = CEvent.domRemove h
  | .mk _ _ (some h) _ _ _ _ _, e, he => ⟨h, by simpa [commitDeletionEvents] using he⟩
  | .mk _ _ none _ _ _ _ (chld :: rest), e, he =>
    commitDeletionEvents_only_remove chld e (by simpa [commitDeletionEvents] using he)
  | .mk _ _ none _ _ _ _ [], e, he => by simp [commitDeletionEvents] at he

theorem commitWorkOwn_no_eff (f : Fiber) : ∀ e ∈ commitWorkOwn f, e.effIdx? = none := by
  intro e he
  unfold commitWorkOwn at he
  cases htag : f.effectTag with
  | none => rw [htag] at he; simp at he
  | some tg =>
    rw [htag] at he
    cases tg with
    | PLACEMENT =>
      cases hd : f.dom with
      | none => rw [hd] at he; simp at he
      | some h =>
        rw [hd] at he
        simp at he
        rw [he]
        rfl
    | UPDATE =>
      cases hd : f.dom with
      | none => rw [hd] at he; simp at he
      | some h =>
        rw [hd] at he
        simp at he
        rw [he]
        rfl
    | DELETION =>
      obtain ⟨h, rfl⟩ := commitDeletionEvents_only_remove f e (by simpa using he)
      rfl

mutual

theorem commitWorkT_no_eff : ∀ (f : Fiber) (e : CEvent), e ∈ commitWorkT f → e.effIdx? = none
  | .mk t p d tg sh eh a c, e, he => by
    rw [commitWorkT] at he
    rcases List.mem_append.mp he with h | h
    · exact commitWorkOwn_no_eff _ e h
    · exact commitWorkL_no_eff c e h

theorem commitWorkL_no_eff : ∀ (l : List Fiber) (e : CEvent), e ∈ commitWorkL l → e.effIdx? = none
  | [], e, he => by simp [commitWorkL] at he
  | f :: fs, e, he => by
    rw [commitWorkL] at he
    rcases List.mem_append.mp he with h | h
    · exact commitWorkT_no_eff f e h
    · exact commitWorkL_no_eff fs e h

end

theorem nodeCleanupGo_all_cleanup (k : Nat) (olds news : List EffectHook) :
    ∀ e ∈ nodeCleanupGo k olds news, e.isCleanup = true := by
  intro e he
  obtain ⟨j, c, rfl, _⟩ := nodeCleanupGo_bound k olds news e he
  rfl

mutual

theorem runCleanupT_all_cleanup : ∀ (f : Fiber) (e : CEvent), e ∈ runCleanupT f → e.isCleanup = true
  | .mk t p d tg sh eh a c, e, he => by
    rw [runCleanupT] at he
    rcases List.mem_append.mp he with h | h
    · exact nodeCleanupGo_all_cleanup 0 _ _ e (by simpa [nodeCleanupEvents] using h)
    · exact runCleanupL_all_cleanup c e h

theorem runCleanupL_all_cleanup : ∀ (l : List Fiber) (e : CEvent), e ∈ runCleanupL l → e.isCleanup = true
  | [], e, he => by simp [runCleanupL] at he
  | f :: fs, e, he => by
    rw [runCleanupL] at he
    rcases List.mem_append.mp he with h | h
    · exact runCleanupT_all_cleanup f e h
    · exact runCleanupL_all_cleanup fs e h

end

mutual

theorem commitWorkT_eq_dfsT : ∀ f : Fiber, commitWorkT f = ((dfsT f).map commitWorkOwn).flatten
  | .mk t p d tg sh eh a c => by
    rw [commitWorkT, dfsT, List.map_cons, List.flatten_cons, commitWorkL_eq_dfsL c]

theorem commitWorkL_eq_dfsL : ∀ l : List Fiber, commitWorkL l = ((dfsL l).map commitWorkOwn).flatten
  | [] => by simp [commitWorkL, dfsL]
  | f :: fs => by
    rw [commitWorkL, dfsL, List.map_append, List.flatten_append,
      commitWorkT_eq_dfsT f, commitWorkL_eq_dfsL fs]

end

/-- C5 (amended): commitRoot processes the pending deletions pass to
completion, then the new-generation mutation pass in depth-first order (child
before sibling), then the effect phase; the dedicated cleanup pass over the
whole new generation runs entirely before the run pass and consists only of
cleanup invocations, and no host-mutation phase event is an effect
invocation.  Within the run pass, a changed cell re-invokes its stale
previous cleanup immediately before its new callback, so a later node's
(second) cleanup invocation can follow an earlier node's callback: the
original claim that all cleanups complete before any callback fails, see the
counterexample. -/
theorem C5_commit_phase_order (dels : List (Fiber × List Fiber)) (wip : Fiber) :
    commitRootTrace dels wip =
      (dels.map deletionEntryTrace).flatten ++ commitWorkL wip.children
        ++ runCleanupT wip ++ runT wip ∧
    commitWorkL wip.children = ((dfsL wip.children).map commitWorkOwn).flatten ∧
    (∀ e ∈ runCleanupT wip, e.isCleanup = true) ∧
    (∀ e ∈ (dels.map deletionEntryTrace).flatten ++ commitWorkL wip.children,
      e.effIdx? = none) ∧
    (∀ (k : Nat) (newH oldH : EffectHook), shouldRun oldH newH = true →
      (runHook k newH (some oldH)).1 =
        (match oldH.cleanup with
         | some c => [CEvent.cleanupCall k c]
         | none => []) ++ [CEvent.callbackCall k newH.callback]) := by
  refine ⟨?_, commitWorkL_eq_dfsL wip.children, runCleanupT_all_cleanup wip, ?_, ?_⟩
  · unfold commitRootTrace commitEffectHooksTrace
    simp [List.append_assoc]
  · intro e he
    rcases List.mem_append.mp he with h | h
    · obtain ⟨l, hl, hel⟩ := List.mem_flatten.mp h
      obtain ⟨entry, _, rfl⟩ := List.mem_map.mp hl
      exact commitWorkL_no_eff _ e hel
    · exact commitWorkL_no_eff _ e h
  · intro k newH oldH hg
    unfold runHook
    dsimp only
    rw [if_pos hg]

theorem C5_commit_phase_order_witness :
    shouldRun c5wOld c5wNew = true ∧
    (runHook 0 c5wNew (some c5wOld)).1 =
      [CEvent.cleanupCall 0 25, CEvent.callbackCall 0 6] :=
  ⟨by decide,
   (C5_commit_phase_order [] (.mk (.host "div") [] none none [] [] none [])).2.2.2.2
     0 c5wNew c5wOld (by decide)⟩

theorem C5_commit_phase_order_counterexample :
    (commitRootTrace [] c5Root)[3]? = some (CEvent.callbackCall 0 2) ∧
    (commitRootTrace [] c5Root)[4]? = some (CEvent.cleanupCall 0 22) ∧
    (CEvent.callbackCall 0 2).isCallback = true ∧
    (CEvent.cleanupCall 0 22).isCleanup = true ∧
    (3 : Nat) < 4 := by
  refine ⟨?_, ?_, rfl, rfl, by decide⟩ <;> decide

theorem runGenerations_cons (hooks : List EffectHook) (specs : List HookSpec)
    (rest : List (List HookSpec)) :
    runGenerations hooks (specs :: rest) =
      ((genCommit hooks specs).1 ++ (runGenerations (genCommit hooks specs).2 rest).1,
       (runGenerations (genCommit hooks specs).2 rest).2) := rfl

theorem genCommit_mount (s : HookSpec) :
    genCommit [] [s] =
      ([CEvent.callbackCall 0 s.callback],
       [{ callback := s.callback, retCleanup := s.retCleanup, deps := s.deps,
          cleanup := s.retCleanup }]) := by
  unfold genCommit nodeCleanupEvents nodeRun
  simp [nodeCleanupGo, nodeRunGo, runHook, freshHook]

theorem genCommit_empty_deps_silent (h : EffectHook) (s : HookSpec)
    (hh : h.deps = some []) (hs : s.deps = some []) :
    genCommit [h] [s] = ([], [freshHook s]) := by
  unfold genCommit nodeCleanupEvents nodeRun
  simp [nodeCleanupGo, nodeRunGo, runHook, freshHook, hs, hh, shouldCleanup, shouldRun,
    isDepsEqual]

theorem runGenerations_empty_deps_silent (rest : List HookSpec) :
    ∀ (h : EffectHook), h.deps = some [] → (∀ s ∈ rest, s.deps = some []) →
    (runGenerations [h] (rest.map (fun s => [s]))).1 = [] := by
  induction rest with
  | nil => intro h _ _; rfl
  | cons s rest ih =>
    intro h hh hs
    rw [List.map_cons, runGenerations_cons,
      genCommit_empty_deps_silent h s hh (hs s (by simp))]
    simp only []
    rw [ih (freshHook s) (by simp [freshHook, hs s (by simp)])
      (fun s2 h2 => hs s2 (by simp [h2]))]
    rfl

/-- C2 (amended): for an effect cell registered with an empty dependency
list, across any number of committed generations of the owning node the
callback is invoked exactly once, at first mount; the cleanup handle is never
invoked by the engine: later equal-deps generations skip it, commitDeletion
removes host nodes without running any effect cleanup, and no end-of-process
pass exists.  The original claim that the cleanup is invoked exactly once
fails, see the counterexample. -/
theorem C2_empty_deps_callback_once_cleanup_never (s0 : HookSpec)
    (rest : List HookSpec) (h0 : s0.deps = some [])
    (hrest : ∀ s ∈ rest, s.deps = some []) :
    (runGenerations [] ((s0 :: rest).map (fun s => [s]))).1 =
      [CEvent.callbackCall 0 s0.callback] ∧
    ((runGenerations [] ((s0 :: rest).map (fun s => [s]))).1.countP
      (fun e => e.isCallback) = 1) ∧
    ((runGenerations [] ((s0 :: rest).map (fun s => [s]))).1.countP
      (fun e => e.isCleanup) = 0) ∧
    (∀ (f : Fiber) (e : CEvent), e ∈ commitDeletionEvents f →
      ∃ hd, e = CEvent.domRemove hd) ∧
    (∀ (l : List Fiber) (e : CEvent), e ∈ commitWorkL l → e.effIdx? = none) := by
  have hmain : (runGenerations [] ((s0 :: rest).map (fun s => [s]))).1 =
      [CEvent.callbackCall 0 s0.callback] := by
    rw [List.map_cons, runGenerations_cons, genCommit_mount s0]
    rw [runGenerations_empty_deps_silent rest _ (by simp [h0]) hrest]
    rfl
  exact ⟨hmain, by rw [hmain]; rfl, by rw [hmain]; rfl,
    commitDeletionEvents_only_remove, commitWorkL_no_eff⟩

theorem C2_empty_deps_counterexample :
    c2FullTrace.countP (fun e => e.isCleanup) = 0 ∧
    ¬ c2FullTrace.countP (fun e => e.isCleanup) = 1 ∧
    c2FullTrace.countP (fun e => e.isCallback) = 1 := by
  refine ⟨by decide, by decide, by decide⟩

theorem renderChain_eq (elems : List Element) (olds : List Fiber) :
    renderChain elems olds =
      ((renderSubtrees elems (reconcileChildren elems olds).1).1,
       (reconcileChildren elems olds).2
         ++ (renderSubtrees elems (reconcileChildren elems olds).1).2) := by
  rw [renderChain]

theorem renderSubtrees_nil (olds : List Fiber) : renderSubtrees [] olds = ([], []) := by
  cases olds <;> simp [renderSubtrees]

theorem renderSubtrees_cons (e : Element) (es : List Element) (f : Fiber) (fs : List Fiber) :
    renderSubtrees (e :: es) (f :: fs) =
      (f.withChildren
          (renderChain e.children
            (match f.alternate with | some a => a.children | none => [])).1
        :: (renderSubtrees es fs).1,
       (renderChain e.children
          (match f.alternate with | some a => a.children | none => [])).2
         ++ (renderSubtrees es fs).2) := by
  rw [renderSubtrees]

theorem matchesB_spec (e : Element) (f : Fiber) (h : matchesB e f = true) :
    e.type = f.type ∧ e.props = f.props ∧ matchesL e.children f.children = true := by
  cases e with
  | mk t p cs =>
    cases f with
    | mk t2 p2 d tg sh eh a c2 =>
      rw [matchesB] at h
      simp only [Bool.and_eq_true, beq_iff_eq] at h
      exact ⟨h.1.1, h.1.2, h.2⟩

theorem matchesL_nil_iff (olds : List Fiber) :
    matchesL [] olds = true ↔ olds = [] := by
  cases olds with
  | nil => simp [matchesL]
  | cons o os => simp [matchesL]

theorem matchesL_cons (e : Element) (es : List Element) (o : Fiber) (os : List Fiber) :
    matchesL (e :: es) (o :: os) = (matchesB e o && matchesL es os) := by
  rw [matchesL]

theorem reconcileChildren_matched : ∀ (es : List Element) (olds : List Fiber),
    matchesL es olds = true →
    reconcileChildren es olds =
      ((es.zip olds).map (fun q => updateFiberOf q.1 q.2), []) := by
  intro es
  induction es with
  | nil =>
    intro olds h
    rw [matchesL_nil_iff] at h
    subst h
    simp [reconcileChildren]
  | cons e es ih =>
    intro olds h
    cases olds with
    | nil => simp [matchesL] at h
    | cons o os =>
      rw [matchesL_cons, Bool.and_eq_true] at h
      have hspec := matchesB_spec e o h.1
      have htype : (e.type == o.type) = true := beq_iff_eq.mpr hspec.1
      simp only [reconcileChildren, htype, if_true, List.zip_cons_cons, List.map_cons]
      rw [ih os h.2]

mutual

theorem renderChain_matched : ∀ (es : List Element) (olds : List Fiber),
    matchesL es olds = true →
    (renderChain es olds).2 = [] ∧ allUpdatedL (renderChain es olds).1 = true
  | es, olds, h => by
    have hs := renderSubtrees_matched es olds h
    rw [renderChain_eq, reconcileChildren_matched es olds h]
    refine ⟨?_, ?_⟩
    · simpa using hs.1
    · simpa using hs.2
termination_by es _ _ => (sizeOf es, 1)
decreasing_by
  apply Prod.Lex.right
  omega

theorem renderSubtrees_matched : ∀ (es : List Element) (olds : List Fiber),
    matchesL es olds = true →
    (renderSubtrees es ((es.zip olds).map (fun q => updateFiberOf q.1 q.2))).2 = [] ∧
    allUpdatedL
      (renderSubtrees es ((es.zip olds).map (fun q => updateFiberOf q.1 q.2))).1 = true
  | [], olds, h => by
    simp [renderSubtrees_nil, allUpdatedL]
  | e :: es, olds, h => by
    cases olds with
    | nil => simp [matchesL] at h
    | cons o os =>
      rw [matchesL_cons, Bool.and_eq_true] at h
      obtain ⟨ht, hp, hc⟩ := matchesB_spec e o h.1
      have hsub := renderChain_matched e.children o.children hc
      have hrest := renderSubtrees_matched es os h.2
      rw [List.zip_cons_cons, List.map_cons, renderSubtrees_cons]
      simp only [updateFiberOf, Fiber.alternate] at hrest ⊢
      constructor
      · simp [hsub.1, hrest.1]
      · have hdelta : updateDomOps o.props e.props = [] := by
          rw [hp]
          exact updateDomOps_self o.props
        simp [allUpdatedL, Fiber.withChildren, allUpdatedNoDelta, Fiber.altProps, hdelta,
          hsub.2, hrest.2]
termination_by es _ _ => (sizeOf es, 0)
decreasing_by
  · apply Prod.Lex.left
    cases e
    simp [Element.children]
    omega
  · apply Prod.Lex.left
    simp

end

/-- C4 (amended): re-rendering a kind-wise and attribute-wise unchanged
description against the previously committed generation produces zero
PLACEMENT and zero DELETION tags — every produced fiber is tagged UPDATE —
and the host attribute delta applied for each such UPDATE is empty; in
general updateDom writes an attribute only where the two props objects differ
(plain by value, event-style by handler identity, removed keys cleared).  The
UPDATE tag itself is however assigned to every type-matched node even when
its attributes are unchanged, see the counterexample. -/
theorem C4_unchanged_rerender (es : List Element) (olds : List Fiber)
    (h : matchesL es olds = true) :
    (renderChain es olds).2 = [] ∧
    allUpdatedL (renderChain es olds).1 = true ∧
    (∀ p : Props, updateDomOps p p = []) ∧
    (∀ (prev next : Props), ∀ op ∈ updateDomOps prev next,
      (∃ n hd, op = DomOp.removeListener n hd ∧
        (!((next.map (·.1)).contains n) || isNew prev next n) = true) ∨
      (∃ n, op = DomOp.clearProp n ∧ isGone next n = true) ∨
      (∃ n v, op = DomOp.setProp n v ∧ isNew prev next n = true) ∨
      (∃ n hd, op = DomOp.addListener n hd ∧ isNew prev next n = true)) :=
  ⟨(renderChain_matched es olds h).1, (renderChain_matched es olds h).2,
   updateDomOps_self, updateDomOps_only_changed⟩

theorem C4_unchanged_rerender_witness :
    matchesL [c4wEl] [c4wOld] = true ∧
    (renderChain [c4wEl] [c4wOld]).2 = [] ∧
    allUpdatedL (renderChain [c4wEl] [c4wOld]).1 = true :=
  ⟨by decide,
   (C4_unchanged_rerender [c4wEl] [c4wOld] (by decide)).1,
   (C4_unchanged_rerender [c4wEl] [c4wOld] (by decide)).2.1⟩

/-- Re-rendering a node whose attributes are unchanged still assigns the
UPDATE tag: the tag is not reserved for nodes whose attributes differ. -/
theorem C4_unchanged_rerender_counterexample :
    reconcileChildren [c4El] [c4Old] =
      ([Fiber.mk (EType.host "div") [("id", JSVal.str "a")] (some 1) (some Tag.UPDATE)
          [] [] (some c4Old) []], []) ∧
    c4El.props = c4Old.props ∧
    updateDomOps c4Old.props c4El.props = [] := by
  have hdelta : updateDomOps c4Old.props c4El.props = [] := by
    rw [show c4El.props = c4Old.props from rfl]
    exact updateDomOps_self c4Old.props
  refine ⟨?_, rfl, hdelta⟩
  simp [reconcileChildren, c4El, c4Old, updateFiberOf, Element.type, Fiber.type,
    Element.props, Fiber.props, Fiber.dom]

theorem sliceLoop_length_lt (sigs : Nat → Bool) :
    ∀ (i : Nat) (u : List Fiber), u ≠ [] → (sliceLoop sigs i u).length < u.length := by
  intro i u
  induction u generalizing i with
  | nil => intro h; exact absurd rfl h
  | cons f rest ih =>
    intro _
    rw [sliceLoop]
    by_cases hs : sigs i
    · simp [hs]
    · rw [if_neg hs]
      cases rest with
      | nil => simp [sliceLoop]
      | cons g rest2 =>
        have := ih (i + 1) (by simp)
        simp only [List.length_cons] at this ⊢
        omega

theorem runMany_cons (sig : Nat → Bool) (rest : List (Nat → Bool)) (s : SchedState) :
    runMany (sig :: rest) s =
      ((runMany rest (workLoopModel sig s).1).1,
       (if (workLoopModel sig s).2 then 1 else 0)
         + (runMany rest (workLoopModel sig s).1).2) := rfl

theorem workLoopModel_wip_none (sigs : Nat → Bool) (s : SchedState) (h : s.wip = none) :
    (workLoopModel sigs s).2 = false ∧ (workLoopModel sigs s).1.wip = none := by
  unfold workLoopModel
  simp [h]

theorem runMany_wip_none (sigss : List (Nat → Bool)) :
    ∀ s : SchedState, s.wip = none → (runMany sigss s).2 = 0 := by
  induction sigss with
  | nil => intro s _; rfl
  | cons sig rest ih =>
    intro s h
    have hw := workLoopModel_wip_none sig s h
    rw [runMany_cons, hw.1, ih (workLoopModel sig s).1 hw.2]
    simp

theorem workLoopModel_commit_post (sigs : Nat → Bool) (s : SchedState)
    (h : (workLoopModel sigs s).2 = true) :
    (workLoopModel sigs s).1.wip = none ∧ (workLoopModel sigs s).1.dels = [] ∧
    (workLoopModel sigs s).1.current = s.wip := by
  unfold workLoopModel at h ⊢
  by_cases hc : ((sliceLoop sigs 0 s.units).isEmpty && s.wip.isSome) = true
  · simp only [hc, if_true]
    exact ⟨rfl, rfl, rfl⟩
  · simp only [hc] at h
    simp at h

theorem workLoopModel_nocommit_post (sigs : Nat → Bool) (s : SchedState)
    (h : (workLoopModel sigs s).2 = false) :
    (workLoopModel sigs s).1.wip = s.wip ∧ (workLoopModel sigs s).1.current = s.current ∧
    (workLoopModel sigs s).1.dels = s.dels ∧
    (workLoopModel sigs s).1.units = sliceLoop sigs 0 s.units := by
  unfold workLoopModel at h ⊢
  by_cases hc : ((sliceLoop sigs 0 s.units).isEmpty && s.wip.isSome) = true
  · simp only [hc, if_true] at h
    simp at h
  · simp only [hc]
    exact ⟨rfl, rfl, rfl, rfl⟩

theorem runMany_le_one (sigss : List (Nat → Bool)) :
    ∀ s : SchedState, (runMany sigss s).2 ≤ 1 := by
  induction sigss with
  | nil => intro s; exact Nat.zero_le 1
  | cons sig rest ih =>
    intro s
    rw [runMany_cons]
    by_cases hb : (workLoopModel sig s).2
    · rw [hb]
      have hpost := workLoopModel_commit_post sig s hb
      rw [runMany_wip_none rest _ hpost.1]
      simp
    · rw [Bool.not_eq_true] at hb
      rw [hb]
      simpa using ih (workLoopModel sig s).1

theorem runMany_commits_once (sigss : List (Nat → Bool)) :
    ∀ s : SchedState, s.wip.isSome = true → sigss.length ≥ s.units.length + 1 →
    (runMany sigss s).2 = 1 := by
  induction sigss with
  | nil =>
    intro s _ hlen
    simp at hlen
  | cons sig rest ih =>
    intro s hwip hlen
    rw [runMany_cons]
    by_cases hb : (workLoopModel sig s).2
    · rw [hb]
      have hpost := workLoopModel_commit_post sig s hb
      rw [runMany_wip_none rest _ hpost.1]
      simp
    · rw [Bool.not_eq_true] at hb
      rw [hb]
      have hpost := workLoopModel_nocommit_post sig s hb
      have hne : s.units ≠ [] := by
        intro hu
        unfold workLoopModel at hb
        rw [hu] at hb
        simp [sliceLoop, hwip] at hb
      have hlt := sliceLoop_length_lt sig 0 s.units hne
      have := ih (workLoopModel sig s).1 (by rw [hpost.1]; exact hwip)
        (by
          rw [hpost.2.2.2]
          simp only [List.length_cons] at hlen
          omega)
      simpa using this

/-- C8: a workLoop invocation triggers the commit pass precisely when the
cursor is absent after the slice while a work-in-progress root exists; a
completed commit clears wipRoot, resets deletions to empty and promotes the
work-in-progress generation to the committed root, while a non-committing
invocation moves none of them; and over any sequence of invocations a
generation commits exactly once: at most once always, and exactly once as
soon as the environment re-invokes the loop often enough to drain the
cursor. -/
theorem C8_commit_exactly_once
    (sigs : Nat → Bool) (s : SchedState)
    (sigss : List (Nat → Bool)) (s2 : SchedState)
    (hwip : s2.wip.isSome = true) (hlen : sigss.length ≥ s2.units.length + 1) :
    ((workLoopModel sigs s).2 = true ↔
      (sliceLoop sigs 0 s.units = [] ∧ s.wip.isSome = true)) ∧
    ((workLoopModel sigs s).2 = true →
      ((workLoopModel sigs s).1.wip = none ∧
       (workLoopModel sigs s).1.dels = [] ∧
       (workLoopModel sigs s).1.current = s.wip)) ∧
    ((workLoopModel sigs s).2 = false →
      ((workLoopModel sigs s).1.wip = s.wip ∧
       (workLoopModel sigs s).1.current = s.current ∧
       (workLoopModel sigs s).1.dels = s.dels)) ∧
    (runMany sigss s2).2 = 1 ∧
    (∀ (sigss2 : List (Nat → Bool)) (s3 : SchedState), (runMany sigss2 s3).2 ≤ 1) := by
  refine ⟨?_, workLoopModel_commit_post sigs s, ?_, runMany_commits_once sigss s2 hwip hlen,
    fun sigss2 s3 => runMany_le_one sigss2 s3⟩
  · unfold workLoopModel
    by_cases hc : ((sliceLoop sigs 0 s.units).isEmpty && s.wip.isSome) = true
    · rw [if_pos hc]
      rw [Bool.and_eq_true, List.isEmpty_iff] at hc
      simp [hc.1, hc.2]
    · rw [if_neg hc]
      rw [Bool.and_eq_true] at hc
      simp only [List.isEmpty_iff] at hc
      simp
      intro h1
      cases hwv : s.wip with
      | none => rfl
      | some f => exact absurd ⟨h1, by rw [hwv]; rfl⟩ hc
  · intro h
    exact ⟨(workLoopModel_nocommit_post sigs s h).1,
      (workLoopModel_nocommit_post sigs s h).2.1,
      (workLoopModel_nocommit_post sigs s h).2.2.1⟩

theorem C8_commit_exactly_once_witness :
    (w8State.wip.isSome = true ∧ w8Sigs.length ≥ w8State.units.length + 1) ∧
    (runMany w8Sigs w8State).2 = 1 :=
  ⟨⟨rfl, by decide⟩,
   (C8_commit_exactly_once (fun _ => false) w8State w8Sigs w8State rfl
     (by decide)).2.2.2.1⟩

theorem C2_empty_deps_callback_once_cleanup_never_witness :
    (c2Spec1.deps = some [] ∧ (∀ s ∈ [c2Spec2], s.deps = some [])) ∧
    (runGenerations [] ((c2Spec1 :: [c2Spec2]).map (fun s => [s]))).1 =
      [CEvent.callbackCall 0 c2Spec1.callback] ∧
    ((runGenerations [] ((c2Spec1 :: [c2Spec2]).map (fun s => [s]))).1.countP
      (fun e => e.isCleanup) = 0) :=
  ⟨⟨rfl, by decide⟩,
   (C2_empty_deps_callback_once_cleanup_never c2Spec1 [c2Spec2] rfl (by decide)).1,
   (C2_empty_deps_callback_once_cleanup_never c2Spec1 [c2Spec2] rfl (by decide)).2.2.1⟩

theorem climbTraverse_step (stk : List (List Fiber)) :
    climbTraverse stk =
      (match climbNext stk with
       | some g => traverseFrom g.1 g.2
       | none => []) := by
  induction stk with
  | nil => simp [climbTraverse, climbNext]
  | cons lvl up ih =>
    cases lvl with
    | nil =>
      rw [climbTraverse, climbNext, ih]
    | cons sib sibs =>
      rw [climbTraverse, climbNext]

/-- One step of the visit sequence is exactly the performUnitOfWork
successor: the visited node followed by the traversal from its successor
position (empty when the successor is absent). -/
theorem traverseFrom_step (f : Fiber) (stk : List (List Fiber)) :
    traverseFrom f stk =
      f :: (match puowNext f stk with
            | some g => traverseFrom g.1 g.2
            | none => []) := by
  cases f with
  | mk t p d tg sh eh a c =>
    cases c with
    | nil =>
      rw [traverseFrom, climbTraverse_step]
      rfl
    | cons c0 cs =>
      rw [traverseFrom]
      rfl

mutual

/-- Iterating the performUnitOfWork successor (child, else nearest following
sibling through the return links) from a position visits the subtree at the
position in depth-first preorder, followed by the pending sibling chains of
the ancestors: the scheduler's cursor is faithfully represented by the
remaining preorder suffix. -/
theorem traverseFrom_eq_dfs : ∀ (f : Fiber) (stk : List (List Fiber)),
    traverseFrom f stk = dfsT f ++ (stk.map dfsL).flatten
  | .mk t p d tg sh eh a (c :: cs), stk => by
    rw [traverseFrom, traverseFrom_eq_dfs c (cs :: stk), dfsT, dfsL]
    simp
  | .mk t p d tg sh eh a [], stk => by
    rw [traverseFrom, climbTraverse_eq_dfs stk, dfsT, dfsL]
    simp
termination_by f stk => sizeOf f + sizeOf stk
decreasing_by
  all_goals
    simp
  all_goals
    omega

theorem climbTraverse_eq_dfs : ∀ stk : List (List Fiber),
    climbTraverse stk = (stk.map dfsL).flatten
  | [] => by simp [climbTraverse]
  | [] :: up => by
    rw [climbTraverse, climbTraverse_eq_dfs up]
    simp [dfsL]
  | (sib :: sibs) :: up => by
    rw [climbTraverse, traverseFrom_eq_dfs sib (sibs :: up)]
    simp [dfsL]
termination_by stk => sizeOf stk
decreasing_by
  all_goals
    simp
  all_goals
    omega

end

/-- From the work-in-progress root the successor enumerates exactly the
depth-first preorder of the generation. -/
theorem traverse_root_eq_dfs (f : Fiber) : traverseFrom f [] = dfsT f := by
  rw [traverseFrom_eq_dfs f []]
  simp
